import Mathlib

/-!
Verification of the NFA-to-DFA conversion engine (`engine.js`).

The JavaScript source is shallowly embedded: strings are `String`, arrays are
`List`, and the untyped value that `separateStates` returns (a string for a
simple state, an array for a composite one) is the sum type `StrOrList`.
JavaScript string primitives (`includes`, `split`, `trim`, default `sort`,
`replace`) are re-implemented over `List Char` so that every definition is
structurally recursive and evaluates inside the kernel.

The recursive epsilon-closure `fetch_E_Closure` of the source has no structural
termination argument (and indeed diverges on cyclic epsilon graphs), so it is
embedded with an explicit fuel parameter; `none` means the computation did not
finish within the given fuel.  The same fuel threads through `lambdaClosureNFA`
and the subset-construction work-list loop of `generateDFA`.
-/

namespace Engine

/-- Character-list prefix test, the base of the JS `String.prototype.includes`. -/
def leadEq : List Char → List Char → Bool
  | [], _ => true
  | _ :: _, [] => false
  | a :: as, b :: bs => a == b && leadEq as bs

/-- Character-list contiguous-subsequence test. -/
def containsSeq (sub : List Char) : List Char → Bool
  | [] => leadEq sub []
  | c :: rest => leadEq sub (c :: rest) || containsSeq sub rest

/-- JS `s.includes(sub)` on strings: substring containment. -/
def strIncludes (s sub : String) : Bool := containsSeq sub.data s.data

/-- Whitespace recognised by `trim` (space, tab, newline, carriage return). -/
def isWsChar (c : Char) : Bool := c == ' ' || c == '\t' || c == '\n' || c == '\r'

/-- JS `s.trim()`. -/
def strTrim (s : String) : String :=
  String.mk (((s.data.dropWhile isWsChar).reverse.dropWhile isWsChar).reverse)

/-- Code-unit lexicographic comparison used by the default JS array sort. -/
def charListLe : List Char → List Char → Bool
  | [], _ => true
  | _ :: _, [] => false
  | a :: as, b :: bs => if a == b then charListLe as bs else decide (a < b)

/-- `strLe a b` holds when `a` sorts no later than `b` under the default JS sort. -/
def strLe (a b : String) : Bool := charListLe a.data b.data

/-- Insert a string into an already sorted list (helper of `sortStrs`). -/
def insertStr (x : String) : List String → List String
  | [] => [x]
  | y :: ys => if strLe y x then y :: insertStr x ys else x :: y :: ys

/-- The default JS `Array.prototype.sort()` on string arrays (insertion sort;
the comparison is a total order, so the result is the unique sorted permutation). -/
def sortStrs (l : List String) : List String := l.foldr insertStr []

/-- JS `array.join(',')`. -/
def joinComma : List String → String
  | [] => ""
  | [s] => s
  | s :: s2 :: rest => s ++ "," ++ joinComma (s2 :: rest)

/-- A transition of the automaton (`class Transition` of the source). -/
structure Transition where
  state : String
  nextStates : List String
  symbol : String
deriving Repr, DecidableEq

/-- An automaton (`class NFA` of the source; also used for the produced DFA). -/
structure NFA where
  initialState : String
  finalStates : List String
  states : List String
  alphabet : List String
  transitions : List Transition
deriving Repr, DecidableEq

/-- `isMultiState` of the source: brace-delimited composite state identifier. -/
def isMultiState (state : String) : Bool :=
  (state.data.head? == some '\x7b') && (state.data.getLast? == some '\x7d')

/-- JS `str.split(',')` on a character list, accumulating the current segment. -/
def splitCommaAux : List Char → List Char → List String
  | [], cur => [String.mk cur.reverse]
  | c :: rest, cur =>
    if c == ',' then String.mk cur.reverse :: splitCommaAux rest []
    else splitCommaAux rest (c :: cur)

/-- `state.substring(1, state.length - 1).split(',')` of the source. -/
def splitComposite (state : String) : List String :=
  splitCommaAux ((state.data.drop 1).dropLast) []

/-- A JavaScript value that is either a string or an array of strings; this is
what the untyped `separateStates` of the source actually returns. -/
inductive StrOrList where
  | str : String → StrOrList
  | list : List String → StrOrList
deriving Repr, DecidableEq

/-- `separateStates` of the source, faithfully: for a composite identifier it
returns the array of members, for a simple identifier it returns the string
itself (not a one-element array). -/
def separateStates (state : String) : StrOrList :=
  if isMultiState state then .list (splitComposite state) else .str state

/-- JS `value.includes(x)` on the result of `separateStates`: membership for an
array, substring containment for a string. -/
def valIncludes : StrOrList → String → Bool
  | .str s, x => strIncludes s x
  | .list l, x => l.contains x

/-- The guarded decomposition `isMultiState(state) ? separateStates(state) : [state]`
used inside the subset-construction loop of `generateDFA`. -/
def decomposeList (state : String) : List String :=
  if isMultiState state then splitComposite state else [state]

/-- `formatDotState` of the source: strip the braces of a composite identifier
and delete the commas; simple identifiers are returned unchanged. -/
def formatDotState (stateStr : String) : String :=
  if isMultiState stateStr then
    String.mk (((stateStr.data.drop 1).dropLast).filter (fun c => !(c == ',')))
  else stateStr

/-- `combineStates` of the source.  The input models the JS array which may hold
`null`/`undefined` entries (`none`); these are filtered out first.  The result
`none` models the `null` sentinel returned for an empty set.  Note the source
sorts but does not deduplicate.  (The source's warning branch for nested arrays
is unreachable for string-array inputs and is not modelled.) -/
def combineStates (states : List (Option String)) : Option String :=
  match sortStrs (states.filterMap id) with
  | [] => none
  | [x] => some x
  | x :: y :: rest => some ("\x7b" ++ joinComma (x :: y :: rest) ++ "\x7d")

/-- `arraysEqual` of the source: element-wise equality of string arrays. -/
def arraysEqual (a b : List String) : Bool := a == b

/-- Append-if-absent, the `if (!acc.includes(x)) acc.push(x)` idiom of the source. -/
def addNew (l : List String) (s : String) : List String :=
  if l.contains s then l else l ++ [s]

/-- `findNextStates` of the source: union, duplicate-free and in encounter
order, of the target sets of all transitions with the given source and symbol. -/
def findNextStates (state symbol : String) (transitions : List Transition) : List String :=
  (transitions.filter (fun t => t.state == state && t.symbol == symbol)).foldl
    (fun acc t => t.nextStates.foldl addNew acc) []

/-- One target-state step of `fetch_E_Closure`: skip an already-included state,
otherwise push it and merge the recursively computed closure (`recur`). -/
def eInner (recur : String → Option (List String)) :
    Option (List String) → String → Option (List String)
  | none, _ => none
  | some ec, ns =>
    if ec.contains ns then some ec
    else
      match recur ns with
      | none => none
      | some sub => some (sub.foldl addNew (ec ++ [ns]))

/-- One transition step of `fetch_E_Closure`: only epsilon transitions leaving
`state` contribute. -/
def eStep (recur : String → Option (List String)) (state : String)
    (acc : Option (List String)) (t : Transition) : Option (List String) :=
  if (strTrim t.symbol == "" || strTrim t.symbol == "λ") && state == t.state then
    t.nextStates.foldl (eInner recur) acc
  else acc

/-- `fetch_E_Closure` of the source with an explicit fuel (the source recursion
carries no visited set across recursive calls and need not terminate; `none`
records that the fuel ran out). -/
def fetch_E_Closure (fuel : Nat) (state : String) (transitions : List Transition) :
    Option (List String) :=
  @Nat.rec (fun _ => String → Option (List String))
    (fun _ => none)
    (fun _ recur st =>
      transitions.foldl (eStep recur st) (some [st]))
    fuel state

theorem fetch_E_Closure_zero (st : String) (ts : List Transition) :
    fetch_E_Closure 0 st ts = none := rfl

theorem fetch_E_Closure_succ (n : Nat) (st : String) (ts : List Transition) :
    fetch_E_Closure (n + 1) st ts =
      ts.foldl (eStep (fun s => fetch_E_Closure n s ts) st) (some [st]) := rfl

/-- The `hasLambda` test of `lambdaClosureNFA`: some transition carries the
empty symbol or the epsilon glyph (exact comparison, no trimming here). -/
def hasLambdaB (nfa : NFA) : Bool :=
  nfa.transitions.any (fun t => t.symbol == "" || t.symbol == "λ")

/-- The `symbolNextStates` accumulation of `lambdaClosureNFA`: for every state
of the closure, every direct successor under `symbol`, merge the epsilon-closure
of that successor (duplicate-free, in encounter order). -/
def symbolNext (fuel : Nat) (transitions : List Transition) (stateClosure : List String)
    (symbol : String) : Option (List String) :=
  stateClosure.foldl
    (fun acc closureState =>
      match acc with
      | none => none
      | some sns =>
        (findNextStates closureState symbol transitions).foldl
          (fun acc2 nextState =>
            match acc2 with
            | none => none
            | some sns2 =>
              match fetch_E_Closure fuel nextState transitions with
              | none => none
              | some closure => some (closure.foldl addNew sns2))
          (some sns))
    (some [])

/-- The transition-building double loop of `lambdaClosureNFA`: one transition
per state and alphabet symbol, targets sorted. -/
def buildClosedTransitions (fuel : Nat) (nfa : NFA) : Option (List Transition) :=
  nfa.states.foldl
    (fun acc state =>
      match acc with
      | none => none
      | some ts =>
        match fetch_E_Closure fuel state nfa.transitions with
        | none => none
        | some stateClosure =>
          nfa.alphabet.foldl
            (fun acc2 symbol =>
              match acc2 with
              | none => none
              | some ts2 =>
                match symbolNext fuel nfa.transitions stateClosure symbol with
                | none => none
                | some sns => some (ts2 ++ [⟨state, sortStrs sns, symbol⟩]))
            (some ts))
    (some [])

/-- `lambdaClosureNFA` of the source.  Returns the input unchanged when no
transition carries an epsilon symbol; otherwise rebuilds the transitions from
the epsilon-closures and, when the closure of the initial state meets the final
set, appends the initial state to the final-state list. -/
def lambdaClosureNFA (fuel : Nat) (nfa : NFA) : Option NFA :=
  if !(hasLambdaB nfa) then some nfa
  else
    match buildClosedTransitions fuel nfa with
    | none => none
    | some nfaClosedTransitions =>
      match fetch_E_Closure fuel nfa.initialState nfa.transitions with
      | none => none
      | some initialStateClosure =>
        let finals :=
          if nfa.finalStates.any (fun fs => initialStateClosure.contains fs) then
            nfa.finalStates ++ [nfa.initialState]
          else nfa.finalStates
        some ⟨nfa.initialState, finals, nfa.states, nfa.alphabet, nfaClosedTransitions⟩

/-- The trap branch of the subset-construction loop: lazily create the trap
state with self-loops on every alphabet symbol, then record a transition into
it. -/
def dfaTrapStep (nfa : NFA) (state symbol : String) (stk dsts : List String)
    (dtrs : List Transition) : List String × List String × List Transition :=
  if dsts.contains "TRAP" then
    (stk, dsts, dtrs ++ [⟨state, ["TRAP"], symbol⟩])
  else
    (stk, dsts ++ ["TRAP"],
      (dtrs ++ nfa.alphabet.map (fun a => ⟨"TRAP", ["TRAP"], a⟩)) ++
        [⟨state, ["TRAP"], symbol⟩])

/-- One alphabet-symbol step of the subset-construction loop for the popped
state `state` with decomposition `sts`.  The accumulator is
(work-list stack, discovered DFA states, DFA transitions).  An empty combined
successor string is falsy in JS, hence also routed to the trap branch. -/
def dfaSymStep (nfa : NFA) (state : String) (sts : List String)
    (acc : List String × List String × List Transition) (symbol : String) :
    List String × List String × List Transition :=
  let stk := acc.1
  let dsts := acc.2.1
  let dtrs := acc.2.2
  let nextStatesUnion :=
    sts.foldl (fun u s => (findNextStates s symbol nfa.transitions).foldl addNew u) []
  match combineStates (nextStatesUnion.map some) with
  | some c =>
    if c == "" then dfaTrapStep nfa state symbol stk dsts dtrs
    else
      let dtrs2 := dtrs ++ [⟨state, [c], symbol⟩]
      if dsts.contains c then (stk, dsts, dtrs2)
      else (c :: stk, dsts ++ [c], dtrs2)
  | none => dfaTrapStep nfa state symbol stk dsts dtrs

/-- The `while (stack.length > 0)` loop of `generateDFA`, fuelled.  Arguments:
fuel, work-list stack (head = top), discovered DFA states, DFA transitions,
step counter.  Returns the final states/transitions, the step counter and the
interruption flag. -/
def dfaLoop (nfa : NFA) (stop : Int) :
    Nat → List String → List String → List Transition → Nat →
    Option (List String × List Transition × Nat × Bool)
  | _, [], dsts, dtrs, counter => some (dsts, dtrs, counter, false)
  | 0, _ :: _, _, _, _ => none
  | fuel + 1, state :: stack, dsts, dtrs, counter =>
    if ((counter + 1 : Nat) : Int) == stop then some (dsts, dtrs, counter + 1, true)
    else
      let sts := decomposeList state
      let r := nfa.alphabet.foldl (dfaSymStep nfa state sts) (stack, dsts, dtrs)
      dfaLoop nfa stop fuel r.1 r.2.1 r.2.2 (counter + 1)

/-- Result of `generateDFA`: the DFA together with the process-wide
`LAST_COMPLETED_STEP_COUNT` (modelled as an explicit input/output value), the
interruption flag and the final step counter. -/
structure GenResult where
  dfa : NFA
  lastCompletedStepCount : Nat
  stepInterrupt : Bool
  stepCounter : Nat
deriving Repr, DecidableEq

/-- `generateDFA` of the source: epsilon elimination, then the work-list subset
construction, then the final-state classification (note: via `separateStates`
whose result for a simple state is a string, so `.includes` is a substring
test there), then the conditional update of the last-completed-step record. -/
def generateDFA (fuel : Nat) (nfa0 : NFA) (stepCounterStop : Int) (lastCount : Nat) :
    Option GenResult :=
  match lambdaClosureNFA fuel nfa0 with
  | none => none
  | some nfa =>
    match dfaLoop nfa stepCounterStop fuel [nfa.initialState] [nfa.initialState] [] 0 with
    | none => none
    | some (dfaStates, dfaTransitions, stepCounter, stepInterrupt) =>
      let dfaFinalStates :=
        dfaStates.foldl
          (fun acc dfaState =>
            if nfa.finalStates.any (fun fs => valIncludes (separateStates dfaState) fs) then
              acc ++ [formatDotState dfaState]
            else acc)
          []
      let newLast := if stepInterrupt then lastCount else stepCounter
      some ⟨⟨nfa.initialState, dfaFinalStates, dfaStates, nfa.alphabet, dfaTransitions⟩,
        newLast, stepInterrupt, stepCounter⟩

/-- Number of transitions with the given source state and symbol. -/
def countTrans (s a : String) (T : List Transition) : Nat :=
  (T.filter (fun t => t.state == s && t.symbol == a)).length

/-- The merge action of `minimizeDFA` for a chosen (remove, replace) pair `p`:
unless the removed state is the literal trap state, drop every state and final
state whose formatted display name equals the removed state's, drop the removed
state's outgoing transitions and redirect incoming ones to the replacement. -/
def minimizeMerge (d : NFA) (p : String × String) : NFA :=
  if p.1 == "TRAP" then d
  else
    { d with
      states := d.states.filter (fun s => formatDotState s != formatDotState p.1),
      transitions := d.transitions.filterMap (fun t =>
        if t.state != p.1 then
          some { t with nextStates :=
            match t.nextStates with
            | [] => []
            | n0 :: rest => if n0 == p.1 then p.2 :: rest else n0 :: rest }
        else none),
      finalStates := d.finalStates.filter (fun s => formatDotState s != formatDotState p.1) }

/-- One candidate merge of `minimizeDFA` for the ordered pair
(`state`, `state2`) against the current automaton `d`: if the two states are
distinct, agree on (format-normalised) finality and have identical successor
arrays on every symbol, merge them, choosing the removed one so that it is
never the initial state (by string identity). -/
def minimizeStep (d : NFA) (state state2 : String) : NFA :=
  if state != state2 &&
      (d.finalStates.contains (formatDotState state) ==
        d.finalStates.contains (formatDotState state2)) then
    if d.alphabet.all (fun symbol =>
        arraysEqual (findNextStates state symbol d.transitions)
          (findNextStates state2 symbol d.transitions)) then
      minimizeMerge d (if d.initialState == state then (state2, state) else (state, state2))
    else d
  else d

/-- `minimizeDFA` of the source.  The outer `forEach` iterates the state array
captured at entry; the inner `forEach` captures the current (possibly already
reduced) state array at each outer step; all mutation is re-threaded through
the folds. -/
def minimizeDFA (dfa : NFA) : NFA :=
  dfa.states.foldl
    (fun d state => d.states.foldl (fun d2 state2 => minimizeStep d2 state state2) d)
    dfa

/-- Adjacent-pair sortedness under the JS string comparison. -/
def strSortedB : List String → Bool
  | [] => true
  | [_] => true
  | a :: b :: r => strLe a b && strSortedB (b :: r)

/-- Invariant threaded through the minimization folds: the initial state is
untouched, the state list only shrinks inside the original one, and both the
original initial state and (when originally present) the trap state survive. -/
def MinInv (d0 d : NFA) : Prop :=
  d.initialState = d0.initialState ∧ (∀ s ∈ d.states, s ∈ d0.states) ∧
  d0.initialState ∈ d.states ∧ ("TRAP" ∈ d0.states → "TRAP" ∈ d.states)

/-- Invariant of the subset-construction work-list loop: discovered states are
distinct, pending states (on the stack) are discovered and have no outgoing
transitions yet, and every fully processed state has exactly one transition per
alphabet symbol, each with a single target. -/
structure LoopInv (alpha : List String) (stack dsts : List String)
    (dtrs : List Transition) : Prop where
  nodupD : dsts.Nodup
  subS : ∀ x ∈ stack, x ∈ dsts
  nodupS : stack.Nodup
  trs : ∀ t ∈ dtrs, (∃ x, t.nextStates = [x]) ∧ t.state ∈ dsts ∧ t.state ∉ stack
  doneCount : ∀ s ∈ dsts, s ∉ stack → ∀ a ∈ alpha, countTrans s a dtrs = 1

/-- Invariant of the per-symbol fold while the popped state `state` is being
processed: `done` is the prefix of the alphabet already handled, and `state`
has exactly one transition for each symbol of `done` and none for the rest. -/
structure FoldInv (alpha : List String) (state : String) (done : List String)
    (stk dsts : List String) (dtrs : List Transition) : Prop where
  nodupD : dsts.Nodup
  subS : ∀ x ∈ stk, x ∈ dsts
  nodupS : stk.Nodup
  memState : state ∈ dsts
  stateNotS : state ∉ stk
  trs : ∀ t ∈ dtrs, (∃ x, t.nextStates = [x]) ∧ t.state ∈ dsts ∧ t.state ∉ stk
  doneCount : ∀ s ∈ dsts, s ∉ stk → s ≠ state → ∀ a ∈ alpha, countTrans s a dtrs = 1
  stateCount : ∀ a ∈ alpha, countTrans state a dtrs = if a ∈ done then 1 else 0

/-! ## General-purpose lemmas -/

theorem contains_iff_mem {l : List String} {a : String} : l.contains a = true ↔ a ∈ l :=
  List.elem_iff

theorem foldl_pres {α β : Type} (P : β → Prop) (f : β → α → β) :
    ∀ (l : List α) (b : β), (∀ a ∈ l, ∀ x, P x → P (f x a)) → P b → P (l.foldl f b) := by
  intro l
  induction l with
  | nil => exact fun b _ hb => hb
  | cons a as ih =>
    intro b hstep hb
    exact ih _ (fun a2 ha2 => hstep a2 (List.mem_cons_of_mem a ha2))
      (hstep a (List.mem_cons_self a as) b hb)

theorem mem_foldl_addNew (a : String) :
    ∀ (sub l : List String), a ∈ l → a ∈ sub.foldl addNew l := by
  intro sub
  induction sub with
  | nil => exact fun l h => h
  | cons x xs ih =>
    intro l h
    refine ih _ ?_
    unfold addNew
    split
    · exact h
    · exact List.mem_append_left _ h

theorem nodup_append_single (l : List String) (c : String) (hl : l.Nodup) (hc : c ∉ l) :
    (l ++ [c]).Nodup := by
  rw [List.nodup_append]
  refine ⟨hl, List.nodup_singleton c, ?_⟩
  intro a ha hb
  rw [List.mem_singleton] at hb
  exact hc (hb ▸ ha)

theorem foldl_filter_map (p : String → Bool) (f : String → String) :
    ∀ (l acc : List String),
      l.foldl (fun acc2 s => if p s then acc2 ++ [f s] else acc2) acc =
        acc ++ (l.filter p).map f := by
  intro l
  induction l with
  | nil => intro acc; simp
  | cons x xs ih =>
    intro acc
    by_cases hx : p x = true
    · simp [List.foldl_cons, hx, ih]
    · rw [Bool.not_eq_true] at hx
      simp [List.foldl_cons, hx, ih]

/-! ## Epsilon-closure lemmas -/

theorem eInner_pres (recur : String → Option (List String)) (a : String)
    (o : Option (List String)) (ns : String)
    (H : ∀ l, o = some l → a ∈ l) :
    ∀ l2, eInner recur o ns = some l2 → a ∈ l2 := by
  intro l2 h
  cases o with
  | none => simp [eInner] at h
  | some ec =>
    have ha := H ec rfl
    rw [eInner] at h
    by_cases hc : ec.contains ns = true
    · rw [if_pos hc] at h
      cases h
      exact ha
    · rw [if_neg hc] at h
      cases hr : recur ns with
      | none => rw [hr] at h; cases h
      | some sub =>
        rw [hr] at h
        cases h
        exact mem_foldl_addNew a sub _ (List.mem_append_left _ ha)

theorem eStep_pres (recur : String → Option (List String)) (st a : String)
    (o : Option (List String)) (t : Transition)
    (H : ∀ l, o = some l → a ∈ l) :
    ∀ l2, eStep recur st o t = some l2 → a ∈ l2 := by
  intro l2 h
  unfold eStep at h
  split at h
  · revert h
    refine fun h => foldl_pres (fun o2 => ∀ l, o2 = some l → a ∈ l)
      (eInner recur) t.nextStates o (fun ns _ o2 H2 => eInner_pres recur a o2 ns H2) H l2 h
  · exact H _ h

theorem fetch_E_Closure_self (fuel : Nat) (st : String) (ts : List Transition)
    (l : List String) (h : fetch_E_Closure fuel st ts = some l) : st ∈ l := by
  cases fuel with
  | zero => rw [fetch_E_Closure_zero] at h; cases h
  | succ n =>
    rw [fetch_E_Closure_succ] at h
    refine foldl_pres (fun o => ∀ l2, o = some l2 → st ∈ l2)
      (eStep (fun s => fetch_E_Closure n s ts) st) ts (some [st])
      (fun t _ o H => eStep_pres _ st st o t H) ?_ l h
    intro l2 hl2
    cases hl2
    exact List.mem_singleton_self st

/-! ## Sorting lemmas -/

theorem charListLe_total : ∀ x y : List Char, charListLe x y = true ∨ charListLe y x = true
  | [], _ => Or.inl rfl
  | _ :: _, [] => Or.inr rfl
  | a :: as, b :: bs => by
    by_cases h : a = b
    · subst h
      simpa [charListLe] using charListLe_total as bs
    · have h1 : (a == b) = false := beq_eq_false_iff_ne.mpr h
      have h2 : (b == a) = false := beq_eq_false_iff_ne.mpr (Ne.symm h)
      rcases lt_or_gt_of_ne h with hl | hl
      · exact Or.inl (by simp [charListLe, h1, hl])
      · exact Or.inr (by simp [charListLe, h2, hl])

theorem strLe_total (a b : String) : strLe a b = true ∨ strLe b a = true :=
  charListLe_total a.data b.data

theorem strLe_of_not (a b : String) (h : strLe a b = false) : strLe b a = true := by
  cases strLe_total a b with
  | inl h1 => rw [h1] at h; cases h
  | inr h1 => exact h1

theorem insertStr_perm (x : String) : ∀ l, (insertStr x l).Perm (x :: l)
  | [] => List.Perm.refl _
  | y :: ys => by
    rw [insertStr]
    split
    · exact (List.Perm.cons y (insertStr_perm x ys)).trans (List.Perm.swap x y ys)
    · exact List.Perm.refl _

theorem sortStrs_perm : ∀ l : List String, (sortStrs l).Perm l
  | [] => List.Perm.refl _
  | a :: l => (insertStr_perm a (sortStrs l)).trans (List.Perm.cons a (sortStrs_perm l))

theorem insertStr_sorted (x : String) :
    ∀ l, strSortedB l = true → strSortedB (insertStr x l) = true
  | [] => fun _ => rfl
  | y :: ys => by
    intro h
    rw [insertStr]
    by_cases hxy : strLe y x = true
    · rw [if_pos hxy]
      cases ys with
      | nil => simp [insertStr, strSortedB, hxy]
      | cons a as =>
        have hya : strLe y a = true := by
          have h3 : strSortedB (y :: a :: as) = (strLe y a && strSortedB (a :: as)) := rfl
          rw [h3, Bool.and_eq_true] at h
          exact h.1
        have has : strSortedB (a :: as) = true := by
          have h3 : strSortedB (y :: a :: as) = (strLe y a && strSortedB (a :: as)) := rfl
          rw [h3, Bool.and_eq_true] at h
          exact h.2
        rw [insertStr]
        by_cases hax : strLe a x = true
        · rw [if_pos hax]
          have hrec : strSortedB (insertStr x (a :: as)) = true :=
            insertStr_sorted x (a :: as) has
          rw [insertStr, if_pos hax] at hrec
          have h4 : strSortedB (y :: a :: insertStr x as) =
              (strLe y a && strSortedB (a :: insertStr x as)) := rfl
          rw [h4, hya, hrec]
          rfl
        · rw [if_neg hax]
          have hax2 : strLe a x = false := by
            cases hv : strLe a x with
            | false => rfl
            | true => exact absurd hv hax
          have hxa : strLe x a = true := strLe_of_not a x hax2
          simp [strSortedB, hxy, hxa, has]
    · rw [if_neg hxy]
      have hxy2 : strLe y x = false := by
        cases hv : strLe y x with
        | false => rfl
        | true => exact absurd hv hxy
      have hyx : strLe x y = true := strLe_of_not y x hxy2
      cases ys with
      | nil => simp [strSortedB, hyx]
      | cons a as => simp [strSortedB, hyx] at h ⊢; exact h

theorem sortStrs_sorted : ∀ l : List String, strSortedB (sortStrs l) = true
  | [] => rfl
  | a :: l => insertStr_sorted a (sortStrs l) (sortStrs_sorted l)

/-! ## Lambda-closure structural lemmas -/

theorem lambdaClosureNFA_fields (fuel : Nat) (nfa y : NFA)
    (h : lambdaClosureNFA fuel nfa = some y) :
    y.initialState = nfa.initialState ∧ y.alphabet = nfa.alphabet ∧ y.states = nfa.states := by
  unfold lambdaClosureNFA at h
  split at h
  · cases h; exact ⟨rfl, rfl, rfl⟩
  · cases hb : buildClosedTransitions fuel nfa with
    | none => rw [hb] at h; cases h
    | some ts =>
      rw [hb] at h
      cases hc : fetch_E_Closure fuel nfa.initialState nfa.transitions with
      | none => rw [hc] at h; cases h
      | some clo =>
        rw [hc] at h
        cases h
        exact ⟨rfl, rfl, rfl⟩

theorem buildClosedTransitions_symbols (fuel : Nat) (nfa : NFA) (ts : List Transition)
    (h : buildClosedTransitions fuel nfa = some ts) :
    ∀ t ∈ ts, t.symbol ∈ nfa.alphabet := by
  unfold buildClosedTransitions at h
  refine foldl_pres
    (fun o : Option (List Transition) => ∀ l, o = some l → ∀ t ∈ l, t.symbol ∈ nfa.alphabet)
    _ nfa.states (some []) ?_ ?_ ts h
  · intro state _ o Ho
    cases o with
    | none => intro l hl; cases hl
    | some ts2 =>
      cases hc : fetch_E_Closure fuel state nfa.transitions with
      | none => simp only [hc]; intro l hl; cases hl
      | some sc =>
        simp only [hc]
        refine foldl_pres
          (fun o2 : Option (List Transition) =>
            ∀ l, o2 = some l → ∀ t ∈ l, t.symbol ∈ nfa.alphabet)
          _ nfa.alphabet (some ts2) ?_ ?_
        · intro symbol hsym o2 Ho2
          cases o2 with
          | none => intro l hl; cases hl
          | some ts3 =>
            cases hs : symbolNext fuel nfa.transitions sc symbol with
            | none => simp only [hs]; intro l hl; cases hl
            | some sns =>
              simp only [hs]
              intro l hl t ht
              cases hl
              rcases List.mem_append.mp ht with h1 | h1
              · exact Ho2 ts3 rfl t h1
              · rw [List.mem_singleton] at h1
                subst h1
                exact hsym
        · exact fun l hl => by cases hl; exact Ho ts2 rfl
  · intro l hl
    cases hl
    intro t ht
    cases ht

/-! ## Transition-count lemmas -/

theorem countTrans_append (s a : String) (T1 T2 : List Transition) :
    countTrans s a (T1 ++ T2) = countTrans s a T1 + countTrans s a T2 := by
  simp [countTrans, List.filter_append]

theorem countTrans_eq_zero_of (s a : String) (T : List Transition)
    (h : ∀ t ∈ T, t.state ≠ s) : countTrans s a T = 0 := by
  unfold countTrans
  rw [List.filter_eq_nil_iff.mpr]
  · rfl
  · intro t ht
    simp [h t ht]

theorem countTrans_singleton (s a : String) (t : Transition) :
    countTrans s a [t] = if t.state = s ∧ t.symbol = a then 1 else 0 := by
  unfold countTrans
  by_cases h1 : t.state = s
  · by_cases h2 : t.symbol = a
    · simp [List.filter, h1, h2]
    · have hb : (t.symbol == a) = false := beq_eq_false_iff_ne.mpr h2
      simp [List.filter, h1, hb, h2]
  · have hb : (t.state == s) = false := beq_eq_false_iff_ne.mpr h1
    simp [List.filter, hb, h1]

theorem filter_beq_length_of_nodup (a : String) :
    ∀ l : List String, l.Nodup → a ∈ l → (l.filter (fun b => b == a)).length = 1 := by
  intro l
  induction l with
  | nil => intro _ h; cases h
  | cons x xs ih =>
    intro hnd hmem
    have hx : x ∉ xs := (List.nodup_cons.mp hnd).1
    have hxs : xs.Nodup := (List.nodup_cons.mp hnd).2
    by_cases hxa : x = a
    · subst hxa
      have : xs.filter (fun b => b == x) = [] := by
        rw [List.filter_eq_nil_iff]
        intro b hb
        simp only [beq_iff_eq]
        intro e
        exact hx (e ▸ hb)
      simp [List.filter, this]
    · have hmem2 : a ∈ xs := by
        rcases List.mem_cons.mp hmem with h | h
        · exact absurd h.symm hxa
        · exact h
      have hb : (x == a) = false := beq_eq_false_iff_ne.mpr hxa
      simp [List.filter, hb, ih hxs hmem2]

theorem countTrans_selfloops_ne (s a : String) (alpha : List String) (h : s ≠ "TRAP") :
    countTrans s a (alpha.map (fun b => (⟨"TRAP", ["TRAP"], b⟩ : Transition))) = 0 := by
  apply countTrans_eq_zero_of
  intro t ht
  rcases List.mem_map.mp ht with ⟨b, _, rfl⟩
  exact fun e => h e.symm

theorem countTrans_selfloops_trap (a : String) (alpha : List String)
    (hnd : alpha.Nodup) (ha : a ∈ alpha) :
    countTrans "TRAP" a (alpha.map (fun b => (⟨"TRAP", ["TRAP"], b⟩ : Transition))) = 1 := by
  unfold countTrans
  rw [List.filter_map, List.length_map]
  have he : ∀ b ∈ alpha,
      ((fun t : Transition => t.state == "TRAP" && t.symbol == a) ∘
        (fun b => (⟨"TRAP", ["TRAP"], b⟩ : Transition))) b = (b == a) := by
    intro b _
    simp [Function.comp]
  rw [List.filter_congr he]
  exact filter_beq_length_of_nodup a alpha hnd ha

/-! ## Claim C2: termination of the epsilon closure -/

theorem cycleStepA (f : String → Option (List String)) (hf : f "B" = none) :
    List.foldl (eStep f "A") (some ["A"])
      [⟨"A", ["B"], "λ"⟩, ⟨"B", ["A"], "λ"⟩] = none := by
  simp +decide [eStep, eInner, hf]

theorem cycleStepB (f : String → Option (List String)) (hf : f "A" = none) :
    List.foldl (eStep f "B") (some ["B"])
      [⟨"A", ["B"], "λ"⟩, ⟨"B", ["A"], "λ"⟩] = none := by
  simp +decide [eStep, eInner, hf]

/-- C2: the claim asserts that `fetch_E_Closure` terminates on every finite
transition list, including cyclic epsilon graphs such as A-λ→B, B-λ→A.  In the
source the revisiting guard only protects the closure list of the current
invocation, while the recursive call starts from a fresh singleton list, so on
this two-state epsilon cycle the recursion never finishes: no amount of fuel
makes the fuelled embedding of the computation return. -/
theorem fetch_E_Closure_diverges_on_cycle :
    ∀ n : Nat,
      fetch_E_Closure n "A" [⟨"A", ["B"], "λ"⟩, ⟨"B", ["A"], "λ"⟩] = none ∧
      fetch_E_Closure n "B" [⟨"A", ["B"], "λ"⟩, ⟨"B", ["A"], "λ"⟩] = none := by
  intro n
  induction n with
  | zero => exact ⟨rfl, rfl⟩
  | succ n ih =>
    refine ⟨?_, ?_⟩
    · rw [fetch_E_Closure_succ]
      exact cycleStepA _ ih.2
    · rw [fetch_E_Closure_succ]
      exact cycleStepB _ ih.1

/-! ## Claim C3: final-state classification -/

/-- C3: the claim says a discovered DFA state is final iff its decomposed
original-state set contains an NFA final state, with containment as a
membership test on the decomposed sequence.  In the source `separateStates`
returns the bare string for a simple state, so `.includes` is a substring
test there: on the NFA with initial state B, final state A and no transitions,
the synthesized trap state is classified final because the string `TRAP`
contains the substring `A`, although its decomposition `[TRAP]` does not
contain the final state `A`. -/
theorem generateDFA_final_misclassification_on_substring :
    generateDFA 5 ⟨"B", ["A"], ["B", "A"], ["0"], []⟩ (-1) 0 =
      some ⟨⟨"B", ["TRAP"], ["B", "TRAP"], ["0"],
        [⟨"TRAP", ["TRAP"], "0"⟩, ⟨"B", ["TRAP"], "0"⟩]⟩, 1, false, 1⟩ ∧
    decomposeList "TRAP" = ["TRAP"] ∧
    ("A" ∈ (["TRAP"] : List String) → False) := by decide

/-! ## Claim C4: minimization preserves the initial and trap states -/

/-- C4 counterexample: on a DFA whose composite state `{A,B}` has the same
formatted display name as the (simple) initial state `AB`, the merge's removal
filter, which compares formatted names, deletes the initial state from the
state list, refuting the claim that `minimizeDFA` never removes it. -/
theorem minimizeDFA_removes_initial_counterexample :
    (⟨"AB", [], ["AB", "\x7bA,B\x7d", "X"], ["0"], []⟩ : NFA).initialState ∈
      (⟨"AB", [], ["AB", "\x7bA,B\x7d", "X"], ["0"], []⟩ : NFA).states ∧
    (⟨"AB", [], ["AB", "\x7bA,B\x7d", "X"], ["0"], []⟩ : NFA).initialState ∉
      (minimizeDFA ⟨"AB", [], ["AB", "\x7bA,B\x7d", "X"], ["0"], []⟩).states := by decide

theorem minimizeMerge_inv (d0 : NFA)
    (hinj : ∀ x ∈ d0.states, ∀ y ∈ d0.states, formatDotState x = formatDotState y → x = y)
    (hinit0 : d0.initialState ∈ d0.states)
    (d : NFA) (remove replace : String)
    (hrem : remove ∈ d0.states) (hne : remove ≠ d0.initialState)
    (H : MinInv d0 d) : MinInv d0 (minimizeMerge d (remove, replace)) := by
  unfold minimizeMerge
  by_cases ht : (remove == "TRAP") = true
  · rw [if_pos ht]
    exact H
  · rw [if_neg ht]
    have hremTrap : remove ≠ "TRAP" := by simpa using ht
    obtain ⟨Hinit, Hsub, Hmem, Htrap⟩ := H
    refine ⟨Hinit, ?_, ?_, ?_⟩
    · intro s hsmem
      exact Hsub s (List.mem_of_mem_filter hsmem)
    · apply List.mem_filter.mpr
      refine ⟨Hmem, ?_⟩
      simp only [bne_iff_ne, ne_eq]
      intro hfmt
      exact hne (hinj d0.initialState hinit0 remove hrem hfmt).symm
    · intro ht0
      apply List.mem_filter.mpr
      refine ⟨Htrap ht0, ?_⟩
      simp only [bne_iff_ne, ne_eq]
      intro hfmt
      exact hremTrap (hinj "TRAP" ht0 remove hrem hfmt).symm

theorem minimizeStep_inv (d0 : NFA)
    (hinj : ∀ x ∈ d0.states, ∀ y ∈ d0.states, formatDotState x = formatDotState y → x = y)
    (hinit0 : d0.initialState ∈ d0.states)
    (d : NFA) (state state2 : String)
    (hs : state ∈ d0.states) (hs2 : state2 ∈ d0.states)
    (H : MinInv d0 d) : MinInv d0 (minimizeStep d state state2) := by
  unfold minimizeStep
  by_cases hcond : (state != state2 &&
      (d.finalStates.contains (formatDotState state) ==
        d.finalStates.contains (formatDotState state2))) = true
  · rw [if_pos hcond]
    have hne12 : state ≠ state2 := by
      simp only [Bool.and_eq_true, bne_iff_ne, ne_eq] at hcond
      exact hcond.1
    by_cases heq : (d.alphabet.all fun symbol =>
        arraysEqual (findNextStates state symbol d.transitions)
          (findNextStates state2 symbol d.transitions)) = true
    · rw [if_pos heq]
      by_cases hi : (d.initialState == state) = true
      · rw [if_pos hi]
        refine minimizeMerge_inv d0 hinj hinit0 d state2 state hs2 ?_ H
        intro he
        have h1 : d.initialState = state := by simpa using hi
        rw [H.1] at h1
        exact hne12 (he.trans h1).symm
      · rw [if_neg hi]
        refine minimizeMerge_inv d0 hinj hinit0 d state state2 hs ?_ H
        intro he
        have h1 : d.initialState ≠ state := by simpa using hi
        rw [H.1] at h1
        exact h1 he.symm
    · rw [if_neg heq]
      exact H
  · rw [if_neg hcond]
    exact H

theorem minimizeDFA_inv (dfa : NFA)
    (hinj : ∀ x ∈ dfa.states, ∀ y ∈ dfa.states, formatDotState x = formatDotState y → x = y)
    (hinit : dfa.initialState ∈ dfa.states) : MinInv dfa (minimizeDFA dfa) := by
  unfold minimizeDFA
  refine foldl_pres (MinInv dfa) _ dfa.states dfa ?_ ⟨rfl, fun s hs => hs, hinit, fun ht => ht⟩
  intro state hstate d Hd
  refine foldl_pres (MinInv dfa) _ d.states d ?_ Hd
  intro state2 hstate2 d2 Hd2
  exact minimizeStep_inv dfa hinj hinit d2 state state2 hstate (Hd.2.1 state2 hstate2) Hd2

/-- C4 amended: the source never selects the initial state (by string
identity) or the literal trap state as the removed member of a merge, but the
removal filters compare formatted display names; therefore the initial state
and the trap state are preserved whenever no two distinct states of the input
DFA share a formatted display name. -/
theorem minimizeDFA_preserves_initial_and_trap_of_injective_format (dfa : NFA)
    (hinj : ∀ x ∈ dfa.states, ∀ y ∈ dfa.states, formatDotState x = formatDotState y → x = y)
    (hinit : dfa.initialState ∈ dfa.states) :
    dfa.initialState ∈ (minimizeDFA dfa).states ∧
    ("TRAP" ∈ dfa.states → "TRAP" ∈ (minimizeDFA dfa).states) := by
  have H := minimizeDFA_inv dfa hinj hinit
  exact ⟨H.2.2.1, H.2.2.2⟩

theorem minimizeDFA_preserves_initial_and_trap_witness :
    (⟨"S0", ["S1"], ["S0", "S1", "TRAP"], ["0"],
        [⟨"S0", ["S1"], "0"⟩, ⟨"S1", ["S1"], "0"⟩, ⟨"TRAP", ["TRAP"], "0"⟩]⟩ : NFA).initialState ∈
      (minimizeDFA ⟨"S0", ["S1"], ["S0", "S1", "TRAP"], ["0"],
        [⟨"S0", ["S1"], "0"⟩, ⟨"S1", ["S1"], "0"⟩, ⟨"TRAP", ["TRAP"], "0"⟩]⟩).states ∧
    ("TRAP" ∈ (⟨"S0", ["S1"], ["S0", "S1", "TRAP"], ["0"],
        [⟨"S0", ["S1"], "0"⟩, ⟨"S1", ["S1"], "0"⟩, ⟨"TRAP", ["TRAP"], "0"⟩]⟩ : NFA).states →
      "TRAP" ∈ (minimizeDFA ⟨"S0", ["S1"], ["S0", "S1", "TRAP"], ["0"],
        [⟨"S0", ["S1"], "0"⟩, ⟨"S1", ["S1"], "0"⟩, ⟨"TRAP", ["TRAP"], "0"⟩]⟩).states) :=
  minimizeDFA_preserves_initial_and_trap_of_injective_format _ (by decide) (by decide)

/-! ## Claim C5: combineStates -/

/-- C5 counterexample: `combineStates` does not deduplicate.  On the input
`[A, A]` the claim's deduplicated reading would leave the single member `A`
returned unchanged, but the source returns the bracketed composite `{A,A}`
with the duplicate preserved. -/
theorem combineStates_no_dedup_counterexample :
    combineStates [some "A", some "A"] = some "\x7bA,A\x7d" ∧
    combineStates [some "A", some "A"] ≠ some "A" := by decide

/-- C5 amended: `combineStates` filters out null entries, sorts the remainder
with the JS code-unit comparison (the result is the sorted permutation of the
filtered input), returns the `null` sentinel when nothing remains, the single
member unchanged when exactly one remains, and otherwise the sorted,
comma-joined members wrapped in the reserved braces with duplicates kept. -/
theorem combineStates_characterization (l : List (Option String)) :
    (l.filterMap id = [] → combineStates l = none) ∧
    (combineStates l = none → l.filterMap id = []) ∧
    (∀ x, sortStrs (l.filterMap id) = [x] → combineStates l = some x) ∧
    (∀ x y rest, sortStrs (l.filterMap id) = x :: y :: rest →
      combineStates l = some ("\x7b" ++ joinComma (x :: y :: rest) ++ "\x7d")) ∧
    strSortedB (sortStrs (l.filterMap id)) = true ∧
    (sortStrs (l.filterMap id)).Perm (l.filterMap id) := by
  refine ⟨?_, ?_, ?_, ?_, sortStrs_sorted _, sortStrs_perm _⟩
  · intro h
    unfold combineStates
    rw [h]
    rfl
  · intro h
    unfold combineStates at h
    cases hs : sortStrs (l.filterMap id) with
    | nil =>
      have := (sortStrs_perm (l.filterMap id)).symm
      rw [hs] at this
      exact this.symm.nil_eq.symm
    | cons x xs =>
      rw [hs] at h
      cases xs with
      | nil => cases h
      | cons y ys => cases h
  · intro x hx
    unfold combineStates
    rw [hx]
  · intro x y rest hx
    unfold combineStates
    rw [hx]

theorem combineStates_characterization_witness :
    combineStates [some "B", some "A", none, some "B"] = some "\x7bA,B,B\x7d" :=
  (combineStates_characterization [some "B", some "A", none, some "B"]).2.2.2.1
    "A" "B" ["B"] rfl

/-! ## Claim C6: decomposition of a simple state -/

/-- C6: the claim (and the source's own JSDoc `@returns {string[]}`) says
`separateStates` returns a one-element sequence for a simple identifier; the
source instead returns the bare string itself, which downstream code then
consumes with substring semantics.  For composite identifiers it does return
the ordered member sequence. -/
theorem separateStates_simple_returns_string :
    separateStates "A" = StrOrList.str "A" ∧
    (∀ l : List String, separateStates "A" ≠ StrOrList.list l) ∧
    separateStates "\x7bA,B\x7d" = StrOrList.list ["A", "B"] := by
  refine ⟨rfl, ?_, by decide⟩
  intro l h
  rw [show separateStates "A" = StrOrList.str "A" from rfl] at h
  cases h

/-! ## Claim C7: idempotence of epsilon elimination -/

theorem hasLambdaB_eq_false (y : NFA)
    (hsy : ∀ t ∈ y.transitions, t.symbol ∈ y.alphabet)
    (h1 : "" ∉ y.alphabet) (h2 : "λ" ∉ y.alphabet) : hasLambdaB y = false := by
  unfold hasLambdaB
  rw [List.any_eq_false]
  intro t ht
  simp only [Bool.or_eq_true, beq_iff_eq, not_or]
  exact ⟨fun e => h1 (e ▸ hsy t ht), fun e => h2 (e ▸ hsy t ht)⟩

theorem lambdaClosureNFA_no_lambda_result (fuel : Nat) (nfa y : NFA)
    (h1 : "" ∉ nfa.alphabet) (h2 : "λ" ∉ nfa.alphabet)
    (h : lambdaClosureNFA fuel nfa = some y) : hasLambdaB y = false := by
  unfold lambdaClosureNFA at h
  split at h
  next hnl =>
    cases h
    cases hv : hasLambdaB nfa with
    | false => rfl
    | true => simp [hv] at hnl
  next hnl =>
    cases hb : buildClosedTransitions fuel nfa with
    | none => rw [hb] at h; cases h
    | some ts =>
      rw [hb] at h
      cases hc : fetch_E_Closure fuel nfa.initialState nfa.transitions with
      | none => rw [hc] at h; cases h
      | some clo =>
        rw [hc] at h
        cases h
        exact hasLambdaB_eq_false _ (buildClosedTransitions_symbols fuel nfa ts hb) h1 h2

/-- C7 counterexample: on the automaton with alphabet `[λ]`, initial state A,
final state B and transition A-λ→B, one application of `lambdaClosureNFA`
appends A to the final states; because the rebuilt transitions still carry the
`λ` symbol (it is in the alphabet), a second application appends A once more,
so applying the function twice does not equal applying it once. -/
theorem lambdaClosureNFA_not_idempotent_counterexample :
    lambdaClosureNFA 5 ⟨"A", ["B"], ["A", "B"], ["λ"], [⟨"A", ["B"], "λ"⟩]⟩ =
      some ⟨"A", ["B", "A"], ["A", "B"], ["λ"],
        [⟨"A", ["B"], "λ"⟩, ⟨"B", [], "λ"⟩]⟩ ∧
    lambdaClosureNFA 5 ⟨"A", ["B", "A"], ["A", "B"], ["λ"],
        [⟨"A", ["B"], "λ"⟩, ⟨"B", [], "λ"⟩]⟩ =
      some ⟨"A", ["B", "A", "A"], ["A", "B"], ["λ"],
        [⟨"A", ["B"], "λ"⟩, ⟨"B", [], "λ"⟩]⟩ ∧
    (⟨"A", ["B", "A", "A"], ["A", "B"], ["λ"], [⟨"A", ["B"], "λ"⟩, ⟨"B", [], "λ"⟩]⟩ : NFA) ≠
      ⟨"A", ["B", "A"], ["A", "B"], ["λ"], [⟨"A", ["B"], "λ"⟩, ⟨"B", [], "λ"⟩]⟩ := by decide

/-- C7 amended: on automata whose alphabet contains neither the empty symbol
nor the epsilon glyph, a successful application of `lambdaClosureNFA` emits
only alphabet-symbol transitions, so a second application (with any fuel)
returns its input unchanged; and on an automaton with no epsilon transitions
the function is the identity. -/
theorem lambdaClosureNFA_idempotent_of_clean_alphabet (fuel fuel2 : Nat) (nfa y : NFA)
    (h1 : "" ∉ nfa.alphabet) (h2 : "λ" ∉ nfa.alphabet)
    (h : lambdaClosureNFA fuel nfa = some y) :
    lambdaClosureNFA fuel2 y = some y ∧
    (hasLambdaB nfa = false → lambdaClosureNFA fuel2 nfa = some nfa) := by
  have hy : hasLambdaB y = false := lambdaClosureNFA_no_lambda_result fuel nfa y h1 h2 h
  constructor
  · simp [lambdaClosureNFA, hy]
  · intro h0
    simp [lambdaClosureNFA, h0]

theorem lambdaClosureNFA_idempotent_witness :
    lambdaClosureNFA 3 (⟨"A", ["C"], ["A", "B", "C"], ["1"],
        [⟨"A", ["C"], "1"⟩, ⟨"B", ["C"], "1"⟩, ⟨"C", [], "1"⟩]⟩ : NFA) =
      some ⟨"A", ["C"], ["A", "B", "C"], ["1"],
        [⟨"A", ["C"], "1"⟩, ⟨"B", ["C"], "1"⟩, ⟨"C", [], "1"⟩]⟩ :=
  (lambdaClosureNFA_idempotent_of_clean_alphabet 3 3
    ⟨"A", ["C"], ["A", "B", "C"], ["1"], [⟨"A", ["B"], "λ"⟩, ⟨"B", ["C"], "1"⟩]⟩
    ⟨"A", ["C"], ["A", "B", "C"], ["1"],
      [⟨"A", ["C"], "1"⟩, ⟨"B", ["C"], "1"⟩, ⟨"C", [], "1"⟩]⟩
    (by decide) (by decide) (by decide)).1

/-! ## Claim C8: the step counter and the last-completed-step record -/

/-- C8: when the incremented step counter equals the limit, the work-list loop
returns immediately with the discovered states and transitions unchanged and
the interrupt flag set; `generateDFA` then leaves the last-completed-step
record at its previous value, and on an uninterrupted run it sets the record
to the final step-counter value. -/
theorem generateDFA_step_record_behavior (fuel : Nat) (nfa : NFA) (stop : Int)
    (lastC : Nat) (res : GenResult)
    (h : generateDFA fuel nfa stop lastC = some res) :
    (res.stepInterrupt = true → res.lastCompletedStepCount = lastC) ∧
    (res.stepInterrupt = false → res.lastCompletedStepCount = res.stepCounter) ∧
    (∀ (nfa2 : NFA) (f c : Nat) (st : String) (stk D : List String) (T : List Transition),
      (((c + 1 : Nat) : Int) == stop) = true →
      dfaLoop nfa2 stop (f + 1) (st :: stk) D T c = some (D, T, c + 1, true)) := by
  have hloop : ∀ (nfa2 : NFA) (f c : Nat) (st : String) (stk D : List String)
      (T : List Transition),
      (((c + 1 : Nat) : Int) == stop) = true →
      dfaLoop nfa2 stop (f + 1) (st :: stk) D T c = some (D, T, c + 1, true) := by
    intro nfa2 f c st stk D T hc
    rw [dfaLoop, if_pos hc]
  unfold generateDFA at h
  split at h
  · cases h
  · split at h
    · cases h
    · cases h
      refine ⟨?_, ?_, hloop⟩
      · intro hb
        simp at hb
        simp [hb]
      · intro hb
        simp at hb
        simp [hb]

/-- C8 witness: a run with step limit 1 is interrupted on the first pop and
leaves the record at its previous value 7. -/
theorem generateDFA_step_record_witness :
    dfaLoop ⟨"A", [], ["A"], ["0"], [⟨"A", ["A"], "0"⟩]⟩ 1 5 ["A"] ["A"] [] 0 =
      some (["A"], [], 1, true) :=
  (generateDFA_step_record_behavior 5 ⟨"A", [], ["A"], ["0"], [⟨"A", ["A"], "0"⟩]⟩ 1 7
    ⟨⟨"A", [], ["A"], ["0"], []⟩, 7, true, 1⟩ rfl).2.2
    ⟨"A", [], ["A"], ["0"], [⟨"A", ["A"], "0"⟩]⟩ 4 0 "A" [] ["A"] [] (by decide)

/-! ## Claim C9: entries of the produced final-state list -/

/-- C9 counterexample: the final-state entries are formatted display names, and
such an entry can be string-equal to a member of the states list: here the
composite final state `{A,B}` has entry `AB`, which is also the (simple)
initial state's identifier, so the claim's consequence that a composite final
state's entry is never string-equal to a member of the states list fails. -/
theorem finalStates_formatted_collision_counterexample :
    generateDFA 10 ⟨"AB", ["A"], ["AB", "A", "B"], ["0"],
        [⟨"AB", ["A", "B"], "0"⟩, ⟨"A", ["A"], "0"⟩, ⟨"B", ["B"], "0"⟩]⟩ (-1) 0 =
      some ⟨⟨"AB", ["AB", "AB"], ["AB", "\x7bA,B\x7d"], ["0"],
        [⟨"AB", ["\x7bA,B\x7d"], "0"⟩, ⟨"\x7bA,B\x7d", ["\x7bA,B\x7d"], "0"⟩]⟩, 2, false, 2⟩ ∧
    isMultiState "\x7bA,B\x7d" = true ∧
    formatDotState "\x7bA,B\x7d" = "AB" ∧
    "AB" ∈ (["AB", "\x7bA,B\x7d"] : List String) := by decide

theorem formatDotState_ne_of_multi (s : String) (hm : isMultiState s = true) :
    formatDotState s ≠ s := by
  intro he
  have hlen1 : 1 ≤ s.data.length := by
    unfold isMultiState at hm
    cases hd : s.data with
    | nil => rw [hd] at hm; simp at hm
    | cons c rest => simp
  have hfmt : formatDotState s =
      String.mk (((s.data.drop 1).dropLast).filter (fun c => !(c == ','))) := by
    unfold formatDotState
    rw [if_pos hm]
  have hlen : (formatDotState s).data.length ≤ s.data.length - 1 - 1 := by
    rw [hfmt]
    calc (String.mk (((s.data.drop 1).dropLast).filter (fun c => !(c == ',')))).data.length
        = (((s.data.drop 1).dropLast).filter (fun c => !(c == ','))).length := rfl
      _ ≤ ((s.data.drop 1).dropLast).length := List.length_filter_le _ _
      _ = (s.data.drop 1).length - 1 := List.length_dropLast _
      _ = s.data.length - 1 - 1 := by rw [List.length_drop]
  rw [he] at hlen
  omega

/-- C9 amended: the final-state list of a produced DFA consists exactly of the
formatted display names (braces stripped, commas removed) of the discovered
states that pass the final test, in order; for a composite state that
formatted name is never the identifier itself, though it can coincide with
another member of the states list. -/
theorem finalStates_are_formatted_names (fuel : Nat) (nfa0 y : NFA) (stop : Int)
    (lastC : Nat) (res : GenResult)
    (hy : lambdaClosureNFA fuel nfa0 = some y)
    (h : generateDFA fuel nfa0 stop lastC = some res) :
    res.dfa.finalStates =
      (res.dfa.states.filter
        (fun s => y.finalStates.any (fun fs => valIncludes (separateStates s) fs))).map
        formatDotState ∧
    ∀ s, isMultiState s = true → formatDotState s ≠ s := by
  refine ⟨?_, fun s hm => formatDotState_ne_of_multi s hm⟩
  unfold generateDFA at h
  split at h
  · cases h
  next y2 hy2 =>
    have hyy : y2 = y := by rw [hy] at hy2; cases hy2; rfl
    subst hyy
    split at h
    · cases h
    · cases h
      simp only [foldl_filter_map]
      simp

theorem finalStates_are_formatted_names_witness :
    (⟨⟨"AB", ["AB", "AB"], ["AB", "\x7bA,B\x7d"], ["0"],
        [⟨"AB", ["\x7bA,B\x7d"], "0"⟩, ⟨"\x7bA,B\x7d", ["\x7bA,B\x7d"], "0"⟩]⟩,
      2, false, 2⟩ : GenResult).dfa.finalStates =
      ((⟨⟨"AB", ["AB", "AB"], ["AB", "\x7bA,B\x7d"], ["0"],
          [⟨"AB", ["\x7bA,B\x7d"], "0"⟩, ⟨"\x7bA,B\x7d", ["\x7bA,B\x7d"], "0"⟩]⟩,
        2, false, 2⟩ : GenResult).dfa.states.filter
        (fun s => (⟨"AB", ["A"], ["AB", "A", "B"], ["0"],
            [⟨"AB", ["A", "B"], "0"⟩, ⟨"A", ["A"], "0"⟩, ⟨"B", ["B"], "0"⟩]⟩ : NFA).finalStates.any
          (fun fs => valIncludes (separateStates s) fs))).map formatDotState :=
  (finalStates_are_formatted_names 10
    ⟨"AB", ["A"], ["AB", "A", "B"], ["0"],
      [⟨"AB", ["A", "B"], "0"⟩, ⟨"A", ["A"], "0"⟩, ⟨"B", ["B"], "0"⟩]⟩
    ⟨"AB", ["A"], ["AB", "A", "B"], ["0"],
      [⟨"AB", ["A", "B"], "0"⟩, ⟨"A", ["A"], "0"⟩, ⟨"B", ["B"], "0"⟩]⟩
    (-1) 0
    ⟨⟨"AB", ["AB", "AB"], ["AB", "\x7bA,B\x7d"], ["0"],
      [⟨"AB", ["\x7bA,B\x7d"], "0"⟩, ⟨"\x7bA,B\x7d", ["\x7bA,B\x7d"], "0"⟩]⟩, 2, false, 2⟩
    (by decide) (by decide)).1

/-! ## Claim C10: the final-state push of lambda elimination -/

/-- C10: when the automaton has epsilon transitions and the epsilon-closure of
the initial state meets the final set, `lambdaClosureNFA` appends the initial
state to the final-state list (the mutation of the source is modelled by the
returned automaton's list).  Since a successful closure always contains its
start state, an initial state that is already final is appended again, leaving
a duplicate entry. -/
theorem lambdaClosureNFA_appends_initial_final_duplicate (fuel : Nat) (nfa y : NFA)
    (hL : hasLambdaB nfa = true)
    (hfin : nfa.initialState ∈ nfa.finalStates)
    (h : lambdaClosureNFA fuel nfa = some y) :
    y.finalStates = nfa.finalStates ++ [nfa.initialState] ∧
    2 ≤ y.finalStates.count nfa.initialState := by
  unfold lambdaClosureNFA at h
  rw [hL] at h
  simp only [Bool.not_true] at h
  rw [if_neg (by simp)] at h
  cases hb : buildClosedTransitions fuel nfa with
  | none => rw [hb] at h; cases h
  | some ts =>
    rw [hb] at h
    cases hc : fetch_E_Closure fuel nfa.initialState nfa.transitions with
    | none => rw [hc] at h; cases h
    | some clo =>
      rw [hc] at h
      have hmem : nfa.initialState ∈ clo := fetch_E_Closure_self fuel _ _ clo hc
      have hany : (nfa.finalStates.any fun fs => clo.contains fs) = true :=
        List.any_eq_true.mpr ⟨nfa.initialState, hfin, contains_iff_mem.mpr hmem⟩
      cases h
      have hfe : (⟨nfa.initialState,
          if nfa.finalStates.any (fun fs => clo.contains fs) then
            nfa.finalStates ++ [nfa.initialState] else nfa.finalStates,
          nfa.states, nfa.alphabet, ts⟩ : NFA).finalStates =
          nfa.finalStates ++ [nfa.initialState] := by
        simp [hany]
        exact ⟨nfa.initialState, hfin, hmem⟩
      refine ⟨hfe, ?_⟩
      rw [hfe, List.count_append, List.count_singleton_self]
      have hpos : 0 < nfa.finalStates.count nfa.initialState :=
        List.count_pos_iff.mpr hfin
      omega

theorem lambdaClosureNFA_appends_initial_witness :
    (⟨"A", ["A", "A"], ["A", "B"], ["0"],
        [⟨"A", [], "0"⟩, ⟨"B", [], "0"⟩]⟩ : NFA).finalStates =
      (⟨"A", ["A"], ["A", "B"], ["0"], [⟨"A", ["B"], "λ"⟩]⟩ : NFA).finalStates ++
        [(⟨"A", ["A"], ["A", "B"], ["0"], [⟨"A", ["B"], "λ"⟩]⟩ : NFA).initialState] ∧
    2 ≤ (⟨"A", ["A", "A"], ["A", "B"], ["0"],
        [⟨"A", [], "0"⟩, ⟨"B", [], "0"⟩]⟩ : NFA).finalStates.count
      (⟨"A", ["A"], ["A", "B"], ["0"], [⟨"A", ["B"], "λ"⟩]⟩ : NFA).initialState :=
  lambdaClosureNFA_appends_initial_final_duplicate 5
    ⟨"A", ["A"], ["A", "B"], ["0"], [⟨"A", ["B"], "λ"⟩]⟩
    ⟨"A", ["A", "A"], ["A", "B"], ["0"], [⟨"A", [], "0"⟩, ⟨"B", [], "0"⟩]⟩
    (by decide) (by decide) (by decide)

/-! ## Claim C1: totality and determinism of the produced DFA -/

theorem dfaSymStep_eq (nfa : NFA) (state : String) (sts : List String)
    (stk dsts : List String) (dtrs : List Transition) (symbol : String) :
    dfaSymStep nfa state sts (stk, dsts, dtrs) symbol =
      match combineStates ((sts.foldl
          (fun u s => (findNextStates s symbol nfa.transitions).foldl addNew u) []).map some) with
      | some c =>
        if c == "" then dfaTrapStep nfa state symbol stk dsts dtrs
        else if dsts.contains c then (stk, dsts, dtrs ++ [⟨state, [c], symbol⟩])
        else (c :: stk, dsts ++ [c], dtrs ++ [⟨state, [c], symbol⟩])
      | none => dfaTrapStep nfa state symbol stk dsts dtrs := rfl

theorem ite_and_self (state sym a : String) :
    (if state = state ∧ sym = a then (1 : Nat) else 0) = if a = sym then 1 else 0 := by
  by_cases h : a = sym
  · rw [if_pos ⟨rfl, h.symm⟩, if_pos h]
  · rw [if_neg (fun hp => h hp.2.symm), if_neg h]

theorem ite_done_step (done : List String) (sym a : String) (hnd_sym : sym ∉ done) :
    (if a ∈ done then (1 : Nat) else 0) + (if a = sym then 1 else 0) =
      if a ∈ done ++ [sym] then 1 else 0 := by
  by_cases has : a = sym
  · subst has
    rw [if_neg hnd_sym, if_pos rfl,
      if_pos (List.mem_append_right _ (List.mem_singleton_self a))]
  · rw [if_neg has]
    by_cases hd : a ∈ done
    · rw [if_pos hd, if_pos (List.mem_append_left _ hd)]
    · rw [if_neg hd, if_neg]
      · intro hm
        rcases List.mem_append.mp hm with h | h
        · exact hd h
        · rw [List.mem_singleton] at h
          exact has h

theorem dfaTrapStep_inv (nfa : NFA) (hnd : nfa.alphabet.Nodup)
    (state sym : String) (done rem : List String)
    (hsplit : nfa.alphabet = done ++ sym :: rem)
    (stk dsts : List String) (dtrs : List Transition)
    (H : FoldInv nfa.alphabet state done stk dsts dtrs) :
    FoldInv nfa.alphabet state (done ++ [sym])
      (dfaTrapStep nfa state sym stk dsts dtrs).1
      (dfaTrapStep nfa state sym stk dsts dtrs).2.1
      (dfaTrapStep nfa state sym stk dsts dtrs).2.2 := by
  have hsym_nd : sym ∉ done := by
    intro hmem
    rw [hsplit] at hnd
    rcases List.nodup_append.mp hnd with ⟨_, _, hdisj⟩
    exact hdisj hmem (List.mem_cons_self sym rem)
  unfold dfaTrapStep
  by_cases hT : (dsts.contains "TRAP") = true
  · rw [if_pos hT]
    refine ⟨H.nodupD, H.subS, H.nodupS, H.memState, H.stateNotS, ?_, ?_, ?_⟩
    · intro t ht
      rcases List.mem_append.mp ht with h1 | h1
      · exact H.trs t h1
      · rw [List.mem_singleton] at h1
        subst h1
        exact ⟨⟨"TRAP", rfl⟩, H.memState, H.stateNotS⟩
    · intro s hsm hns hne a ha
      rw [countTrans_append, H.doneCount s hsm hns hne a ha, countTrans_singleton,
        if_neg (fun hp => hne hp.1.symm)]
    · intro a ha
      rw [countTrans_append, H.stateCount a ha, countTrans_singleton, ite_and_self,
        ite_done_step done sym a hsym_nd]
  · rw [if_neg hT]
    have hTm : "TRAP" ∉ dsts := fun hm => hT (contains_iff_mem.mpr hm)
    have hTstate : state ≠ "TRAP" := fun he => hTm (he ▸ H.memState)
    have hTstk : "TRAP" ∉ stk := fun hm => hTm (H.subS _ hm)
    refine ⟨nodup_append_single dsts "TRAP" H.nodupD hTm, ?_, H.nodupS,
      List.mem_append_left _ H.memState, H.stateNotS, ?_, ?_, ?_⟩
    · intro x hx
      exact List.mem_append_left _ (H.subS x hx)
    · intro t ht
      rcases List.mem_append.mp ht with h1 | h1
      · rcases List.mem_append.mp h1 with h2 | h2
        · obtain ⟨hsing, hmem2, hnst⟩ := H.trs t h2
          exact ⟨hsing, List.mem_append_left _ hmem2, hnst⟩
        · rcases List.mem_map.mp h2 with ⟨bsym, _, rfl⟩
          exact ⟨⟨"TRAP", rfl⟩, List.mem_append_right _ (List.mem_singleton_self _), hTstk⟩
      · rw [List.mem_singleton] at h1
        subst h1
        exact ⟨⟨"TRAP", rfl⟩, List.mem_append_left _ H.memState, H.stateNotS⟩
    · intro s hsm hns hne a ha
      rw [countTrans_append, countTrans_append, countTrans_singleton]
      rcases List.mem_append.mp hsm with h1 | h1
      · have hsT : s ≠ "TRAP" := fun he => hTm (he ▸ h1)
        rw [H.doneCount s h1 hns hne a ha, countTrans_selfloops_ne s a _ hsT,
          if_neg (fun hp => hne hp.1.symm)]
      · rw [List.mem_singleton] at h1
        subst h1
        rw [countTrans_eq_zero_of _ _ _
            (fun t ht he => hTm (by rw [← he]; exact (H.trs t ht).2.1)),
          countTrans_selfloops_trap a nfa.alphabet hnd ha,
          if_neg (fun hp => hTstate hp.1)]
    · intro a ha
      rw [countTrans_append, countTrans_append, H.stateCount a ha,
        countTrans_selfloops_ne state a _ hTstate, Nat.add_zero, countTrans_singleton,
        ite_and_self, ite_done_step done sym a hsym_nd]

theorem edge_append_inv (nfa : NFA) (state sym : String) (done : List String)
    (hsym_nd : sym ∉ done) (stk dsts : List String) (dtrs : List Transition) (c : String)
    (H : FoldInv nfa.alphabet state done stk dsts dtrs) :
    FoldInv nfa.alphabet state (done ++ [sym]) stk dsts
      (dtrs ++ [⟨state, [c], sym⟩]) := by
  refine ⟨H.nodupD, H.subS, H.nodupS, H.memState, H.stateNotS, ?_, ?_, ?_⟩
  · intro t ht
    rcases List.mem_append.mp ht with h1 | h1
    · exact H.trs t h1
    · rw [List.mem_singleton] at h1
      subst h1
      exact ⟨⟨c, rfl⟩, H.memState, H.stateNotS⟩
  · intro s hsm hns hne a ha
    rw [countTrans_append, H.doneCount s hsm hns hne a ha, countTrans_singleton,
      if_neg (fun hp => hne hp.1.symm)]
  · intro a ha
    rw [countTrans_append, H.stateCount a ha, countTrans_singleton, ite_and_self,
      ite_done_step done sym a hsym_nd]

theorem edge_push_inv (nfa : NFA) (state sym : String) (done : List String)
    (hsym_nd : sym ∉ done) (stk dsts : List String) (dtrs : List Transition) (c : String)
    (hcm : c ∉ dsts)
    (H : FoldInv nfa.alphabet state done stk dsts dtrs) :
    FoldInv nfa.alphabet state (done ++ [sym]) (c :: stk) (dsts ++ [c])
      (dtrs ++ [⟨state, [c], sym⟩]) := by
  have hcstate : c ≠ state := fun he => hcm (he ▸ H.memState)
  have hcstk : c ∉ stk := fun hm => hcm (H.subS _ hm)
  refine ⟨nodup_append_single _ _ H.nodupD hcm, ?_,
    List.nodup_cons.mpr ⟨hcstk, H.nodupS⟩, List.mem_append_left _ H.memState, ?_, ?_, ?_, ?_⟩
  · intro x hx
    rcases List.mem_cons.mp hx with h1 | h1
    · subst h1
      exact List.mem_append_right _ (List.mem_singleton_self _)
    · exact List.mem_append_left _ (H.subS x h1)
  · intro hm
    rcases List.mem_cons.mp hm with h1 | h1
    · exact hcstate h1.symm
    · exact H.stateNotS h1
  · intro t ht
    rcases List.mem_append.mp ht with h1 | h1
    · obtain ⟨hsing, hmem2, hnst⟩ := H.trs t h1
      refine ⟨hsing, List.mem_append_left _ hmem2, ?_⟩
      intro hm
      rcases List.mem_cons.mp hm with h2 | h2
      · exact hcm (h2 ▸ hmem2)
      · exact hnst h2
    · rw [List.mem_singleton] at h1
      subst h1
      refine ⟨⟨c, rfl⟩, List.mem_append_left _ H.memState, ?_⟩
      intro hm
      rcases List.mem_cons.mp hm with h2 | h2
      · exact hcstate h2.symm
      · exact H.stateNotS h2
  · intro s hsm hns hne a ha
    have hs2 : s ∈ dsts := by
      rcases List.mem_append.mp hsm with h1 | h1
      · exact h1
      · rw [List.mem_singleton] at h1
        cases h1
        exact absurd (List.mem_cons_self _ _) hns
    have hns2 : s ∉ stk := fun hm => hns (List.mem_cons_of_mem c hm)
    rw [countTrans_append, H.doneCount s hs2 hns2 hne a ha, countTrans_singleton,
      if_neg (fun hp => hne hp.1.symm)]
  · intro a ha
    rw [countTrans_append, H.stateCount a ha, countTrans_singleton, ite_and_self,
      ite_done_step done sym a hsym_nd]

theorem dfaSymStep_inv (nfa : NFA) (hnd : nfa.alphabet.Nodup)
    (state : String) (sts : List String) (sym : String) (done rem : List String)
    (hsplit : nfa.alphabet = done ++ sym :: rem)
    (stk dsts : List String) (dtrs : List Transition)
    (H : FoldInv nfa.alphabet state done stk dsts dtrs) :
    FoldInv nfa.alphabet state (done ++ [sym])
      (dfaSymStep nfa state sts (stk, dsts, dtrs) sym).1
      (dfaSymStep nfa state sts (stk, dsts, dtrs) sym).2.1
      (dfaSymStep nfa state sts (stk, dsts, dtrs) sym).2.2 := by
  have hsym_nd : sym ∉ done := by
    intro hmem
    rw [hsplit] at hnd
    rcases List.nodup_append.mp hnd with ⟨_, _, hdisj⟩
    exact hdisj hmem (List.mem_cons_self sym rem)
  rw [dfaSymStep_eq]
  cases hcomb : combineStates ((sts.foldl
      (fun u s => (findNextStates s sym nfa.transitions).foldl addNew u) []).map some) with
  | none =>
    exact dfaTrapStep_inv nfa hnd state sym done rem hsplit stk dsts dtrs H
  | some c =>
    dsimp only
    by_cases hce : (c == "") = true
    · rw [if_pos hce]
      exact dfaTrapStep_inv nfa hnd state sym done rem hsplit stk dsts dtrs H
    · rw [if_neg hce]
      by_cases hmc : (dsts.contains c) = true
      · rw [if_pos hmc]
        exact edge_append_inv nfa state sym done hsym_nd stk dsts dtrs c H
      · rw [if_neg hmc]
        exact edge_push_inv nfa state sym done hsym_nd stk dsts dtrs c
          (fun hm => hmc (contains_iff_mem.mpr hm)) H

theorem foldl_dfaSymStep_inv (nfa : NFA) (hnd : nfa.alphabet.Nodup)
    (state : String) (sts : List String) :
    ∀ (rem done : List String), nfa.alphabet = done ++ rem →
      ∀ (stk dsts : List String) (dtrs : List Transition),
        FoldInv nfa.alphabet state done stk dsts dtrs →
        FoldInv nfa.alphabet state (done ++ rem)
          (rem.foldl (dfaSymStep nfa state sts) (stk, dsts, dtrs)).1
          (rem.foldl (dfaSymStep nfa state sts) (stk, dsts, dtrs)).2.1
          (rem.foldl (dfaSymStep nfa state sts) (stk, dsts, dtrs)).2.2 := by
  intro rem
  induction rem with
  | nil =>
    intro done h stk dsts dtrs H
    simpa using H
  | cons sym rem ih =>
    intro done h stk dsts dtrs H
    have H1 := dfaSymStep_inv nfa hnd state sts sym done rem h stk dsts dtrs H
    have h2 : nfa.alphabet = (done ++ [sym]) ++ rem := by
      rw [h, List.append_assoc]
      rfl
    have H2 := ih (done ++ [sym]) h2
      (dfaSymStep nfa state sts (stk, dsts, dtrs) sym).1
      (dfaSymStep nfa state sts (stk, dsts, dtrs) sym).2.1
      (dfaSymStep nfa state sts (stk, dsts, dtrs) sym).2.2 H1
    have h3 : done ++ sym :: rem = (done ++ [sym]) ++ rem := by
      rw [List.append_assoc]
      rfl
    rw [List.foldl_cons, h3]
    exact H2

theorem loopInv_to_foldInv (nfa : NFA) (state : String) (rest dsts : List String)
    (dtrs : List Transition) (L : LoopInv nfa.alphabet (state :: rest) dsts dtrs) :
    FoldInv nfa.alphabet state [] rest dsts dtrs := by
  have hmem : state ∈ dsts := L.subS state (List.mem_cons_self _ _)
  have hnotrest : state ∉ rest := (List.nodup_cons.mp L.nodupS).1
  refine ⟨L.nodupD, fun x hx => L.subS x (List.mem_cons_of_mem _ hx),
    (List.nodup_cons.mp L.nodupS).2, hmem, hnotrest, ?_, ?_, ?_⟩
  · intro t ht
    obtain ⟨hsing, hmem2, hnst⟩ := L.trs t ht
    exact ⟨hsing, hmem2, fun hm => hnst (List.mem_cons_of_mem _ hm)⟩
  · intro s hsm hns hne a ha
    refine L.doneCount s hsm ?_ a ha
    intro hm
    rcases List.mem_cons.mp hm with h1 | h1
    · exact hne h1
    · exact hns h1
  · intro a ha
    have h0 : countTrans state a dtrs = 0 := by
      refine countTrans_eq_zero_of _ _ _ ?_
      intro t ht he
      exact (L.trs t ht).2.2 (by rw [he]; exact List.mem_cons_self state rest)
    rw [h0]
    simp

theorem foldInv_to_loopInv (nfa : NFA) (state : String) (stk dsts : List String)
    (dtrs : List Transition)
    (F : FoldInv nfa.alphabet state nfa.alphabet stk dsts dtrs) :
    LoopInv nfa.alphabet stk dsts dtrs := by
  refine ⟨F.nodupD, F.subS, F.nodupS, F.trs, ?_⟩
  intro s hsm hns a ha
  by_cases he : s = state
  · subst he
    rw [F.stateCount a ha, if_pos ha]
  · exact F.doneCount s hsm hns he a ha

theorem counter_ne_neg_one (counter : Nat) :
    ¬ ((((counter + 1 : Nat) : Int) == (-1 : Int)) = true) := by
  intro h
  rw [beq_iff_eq] at h
  omega

theorem dfaLoop_cons_eq (nfa : NFA) (fuel : Nat) (state : String)
    (stack dsts : List String) (dtrs : List Transition) (counter : Nat)
    (hc : ¬ ((((counter + 1 : Nat) : Int) == (-1 : Int)) = true)) :
    dfaLoop nfa (-1) (fuel + 1) (state :: stack) dsts dtrs counter =
      dfaLoop nfa (-1) fuel
        (nfa.alphabet.foldl (dfaSymStep nfa state (decomposeList state)) (stack, dsts, dtrs)).1
        (nfa.alphabet.foldl (dfaSymStep nfa state (decomposeList state)) (stack, dsts, dtrs)).2.1
        (nfa.alphabet.foldl (dfaSymStep nfa state (decomposeList state)) (stack, dsts, dtrs)).2.2
        (counter + 1) := by
  simp only [dfaLoop]
  rw [if_neg hc]

theorem dfaLoop_inv (nfa : NFA) (hnd : nfa.alphabet.Nodup) :
    ∀ (fuel : Nat) (stack dsts : List String) (dtrs : List Transition) (counter : Nat)
      (D : List String) (T : List Transition) (c : Nat) (b : Bool),
      LoopInv nfa.alphabet stack dsts dtrs →
      dfaLoop nfa (-1) fuel stack dsts dtrs counter = some (D, T, c, b) →
      LoopInv nfa.alphabet [] D T := by
  intro fuel
  induction fuel with
  | zero =>
    intro stack dsts dtrs counter D T c b L h
    cases stack with
    | nil =>
      simp only [dfaLoop] at h
      cases h
      exact L
    | cons s st =>
      simp only [dfaLoop] at h
      cases h
  | succ fuel ih =>
    intro stack dsts dtrs counter D T c b L h
    cases stack with
    | nil =>
      simp only [dfaLoop] at h
      cases h
      exact L
    | cons state rest =>
      rw [dfaLoop_cons_eq nfa fuel state rest dsts dtrs counter
        (counter_ne_neg_one counter)] at h
      have F0 := loopInv_to_foldInv nfa state rest dsts dtrs L
      have F1 := foldl_dfaSymStep_inv nfa hnd state (decomposeList state) nfa.alphabet []
        (List.nil_append _).symm rest dsts dtrs F0
      rw [List.nil_append] at F1
      have L2 := foldInv_to_loopInv nfa state _ _ _ F1
      exact ih _ _ _ _ D T c b L2 h

theorem findNext_length_one (s a : String) (T : List Transition)
    (h1 : countTrans s a T = 1) (hsing : ∀ t ∈ T, ∃ x, t.nextStates = [x]) :
    (findNextStates s a T).length = 1 := by
  unfold countTrans at h1
  obtain ⟨t, ht⟩ := List.length_eq_one.mp h1
  have htm : t ∈ T := List.mem_of_mem_filter (ht ▸ List.mem_singleton_self t)
  obtain ⟨x, hx⟩ := hsing t htm
  unfold findNextStates
  rw [ht]
  simp [List.foldl, hx, addNew]

/-- C1: for every NFA (its alphabet, a set per the data model, is embedded as
a duplicate-free list) on which `generateDFA` with unlimited steps
(`stepCounterStop = -1`) finishes, the returned automaton has, for every state
of its state list and every alphabet symbol, exactly one transition with that
source and symbol in the transition list, and looking up successors with
`findNextStates` yields exactly one next state (the trap state's self-loops
included). -/
theorem generateDFA_unlimited_total_deterministic (fuel lastC : Nat) (nfa : NFA)
    (res : GenResult) (hnd : nfa.alphabet.Nodup)
    (h : generateDFA fuel nfa (-1) lastC = some res) :
    ∀ s ∈ res.dfa.states, ∀ a ∈ res.dfa.alphabet,
      countTrans s a res.dfa.transitions = 1 ∧
      (findNextStates s a res.dfa.transitions).length = 1 := by
  unfold generateDFA at h
  split at h
  · cases h
  next y hy =>
    split at h
    · cases h
    next D T c b hd =>
      cases h
      have halpha : y.alphabet = nfa.alphabet := (lambdaClosureNFA_fields fuel nfa y hy).2.1
      have hndy : y.alphabet.Nodup := by rw [halpha]; exact hnd
      have Hini : LoopInv y.alphabet [y.initialState] [y.initialState] [] := by
        refine ⟨List.nodup_singleton _, fun x hx => hx, List.nodup_singleton _, ?_, ?_⟩
        · intro t ht
          cases ht
        · intro s hs hns a ha
          exact absurd hs hns
      have HL := dfaLoop_inv y hndy fuel [y.initialState] [y.initialState] [] 0 D T c b Hini hd
      intro s hs a ha
      have h1 : countTrans s a T = 1 := HL.doneCount s hs (List.not_mem_nil s) a ha
      exact ⟨h1, findNext_length_one s a T h1 (fun t ht => (HL.trs t ht).1)⟩

theorem generateDFA_unlimited_total_witness :
    countTrans "\x7bA,B\x7d" "1"
      [⟨"A", ["\x7bA,B\x7d"], "0"⟩, ⟨"A", ["A"], "1"⟩,
        ⟨"\x7bA,B\x7d", ["\x7bA,B\x7d"], "0"⟩, ⟨"\x7bA,B\x7d", ["\x7bA,C\x7d"], "1"⟩,
        ⟨"\x7bA,C\x7d", ["\x7bA,B\x7d"], "0"⟩, ⟨"\x7bA,C\x7d", ["A"], "1"⟩] = 1 ∧
    (findNextStates "\x7bA,B\x7d" "1"
      [⟨"A", ["\x7bA,B\x7d"], "0"⟩, ⟨"A", ["A"], "1"⟩,
        ⟨"\x7bA,B\x7d", ["\x7bA,B\x7d"], "0"⟩, ⟨"\x7bA,B\x7d", ["\x7bA,C\x7d"], "1"⟩,
        ⟨"\x7bA,C\x7d", ["\x7bA,B\x7d"], "0"⟩, ⟨"\x7bA,C\x7d", ["A"], "1"⟩]).length = 1 :=
  generateDFA_unlimited_total_deterministic 10 0
    ⟨"A", ["C"], ["A", "B", "C"], ["0", "1"],
      [⟨"A", ["A"], "0"⟩, ⟨"A", ["B"], "0"⟩, ⟨"A", ["A"], "1"⟩, ⟨"B", ["C"], "1"⟩]⟩
    ⟨⟨"A", ["AC"], ["A", "\x7bA,B\x7d", "\x7bA,C\x7d"], ["0", "1"],
      [⟨"A", ["\x7bA,B\x7d"], "0"⟩, ⟨"A", ["A"], "1"⟩,
        ⟨"\x7bA,B\x7d", ["\x7bA,B\x7d"], "0"⟩, ⟨"\x7bA,B\x7d", ["\x7bA,C\x7d"], "1"⟩,
        ⟨"\x7bA,C\x7d", ["\x7bA,B\x7d"], "0"⟩, ⟨"\x7bA,C\x7d", ["A"], "1"⟩]⟩, 3, false, 3⟩
    (by decide) (by decide) "\x7bA,B\x7d" (by decide) "1" (by decide)

end Engine
